import Mathlib

/-!
Shallow embedding of `src/main.py` (videotools): three Gradio button handlers
that split or merge video files, plus a directory-listing helper.

Modelling conventions:
* Python floats are modelled as rationals (`ℚ`); the timestamp arithmetic in
  the source is plain `+`, `min`, `sorted` and comparisons, all exact here.
* A source video is modelled by its total duration; `video.subclip(a, b)` is
  modelled as the boundary pair `(a, b)` and `video.subclip(a)` as `(a, D)`.
* `gr.Error` is modelled as `Except.error` carrying the message string; the
  handlers raise before any file is opened or written, so an `.error` result
  means no output was produced.
* The `while` loop of `split_video_by_duration` is fuel-indexed so that both
  its terminating and its diverging behaviour are expressible.
-/

namespace VideoTools

instance {ε α : Type} [DecidableEq ε] [DecidableEq α] : DecidableEq (Except ε α) :=
  fun x y =>
    match x, y with
    | .ok a, .ok b =>
        if h : a = b then .isTrue (by rw [h]) else .isFalse (by simp [h])
    | .error a, .error b =>
        if h : a = b then .isTrue (by rw [h]) else .isFalse (by simp [h])
    | .ok _, .error _ => .isFalse (by simp)
    | .error _, .ok _ => .isFalse (by simp)

/-- Value of a digit string, most significant first. -/
def digitsVal (cs : List Char) : Nat :=
  cs.foldl (fun a c => 10 * a + (c.toNat - Char.toNat '0')) 0

/-- Models Python `float()` on plain decimal literals: optional sign, integer
digits, optional `.` and fraction digits, at least one digit overall.  This is
the parser behind the `float(m)` calls at src/main.py:17 and src/main.py:48;
it returns `none` exactly when `float` raises `ValueError` on such literals. -/
def pyFloat (cs : List Char) : Option ℚ :=
  let neg : Bool := cs.headD ' ' = '-'
  let body := if neg || cs.headD ' ' = '+' then cs.tail else cs
  let ip := body.takeWhile Char.isDigit
  let mag : Option ℚ :=
    match body.dropWhile Char.isDigit with
    | [] => if ip.isEmpty then none else some (digitsVal ip)
    | c :: fp =>
        if c = '.' && fp.all Char.isDigit && !(ip.isEmpty && fp.isEmpty) then
          some ((digitsVal ip : ℚ) + (digitsVal fp : ℚ) / 10 ^ fp.length)
        else none
  mag.map (fun v => if neg then -v else v)

/-- `marks.split(',')` (src/main.py:17) over the string's characters: Python's
`str.split` on an explicit separator, so `"".split(',') == ['']`. -/
def splitTokens : List Char → List (List Char)
  | [] => [[]]
  | c :: cs =>
      if c = ',' then [] :: splitTokens cs
      else
        match splitTokens cs with
        | [] => [[c]]
        | t :: ts => (c :: t) :: ts

/-- The comprehension `[float(m) for m in tokens]` inside try/except:
evaluates `float` on each token, failing (`none`) as soon as one token
raises `ValueError`. -/
def floatList : List (List Char) → Option (List ℚ)
  | [] => some []
  | t :: ts =>
      match pyFloat t, floatList ts with
      | some v, some vs => some (v :: vs)
      | _, _ => none

/-- `[float(m) for m in marks.split(',')]` guarded by try/except
(src/main.py:16-19): `none` when any token fails numeric parsing. -/
def parseMarks (marks : String) : Option (List ℚ) :=
  floatList (splitTokens marks.toList)

/-- The for-loop of src/main.py:23-27: `start = 0`, then for each mark emit
`subclip(start, mark)` and set `start = mark`. -/
def buildSegments (start : ℚ) : List ℚ → List (ℚ × ℚ)
  | [] => []
  | m :: ms => (start, m) :: buildSegments m ms

/-- The value of `start` after the loop of src/main.py:23-27. -/
def loopEnd (start : ℚ) : List ℚ → ℚ
  | [] => start
  | m :: ms => loopEnd m ms

/-- `split_video_at_marks` (src/main.py:9-38).  The uploaded video is modelled
by its duration `D`; the result is the ordered list of written segment
boundary pairs (writing the files and re-listing the output directory is
outside the model). -/
def split_video_at_marks (video_path marks : String) (D : ℚ) :
    Except String (List (ℚ × ℚ)) :=
  if video_path = "" then .error "Please upload a video file."
  else if marks = "" then .error "Please enter at least one mark."
  else
    match parseMarks marks with
    | none =>
        .error "Invalid marks format. Please use comma-separated numbers (e.g., 10,25.5,60)."
    | some ms =>
        let s := ms.insertionSort (· ≤ ·)
        let clips := buildSegments 0 s
        let start := loopEnd 0 s
        .ok (if start < D then clips ++ [(start, D)] else clips)

/-- The while-loop of src/main.py:56-59, fuel-indexed: `some segs` when the
loop exits within `fuel` iterations, `none` when it is still running. -/
def durationLoop (d total : ℚ) : ℚ → Nat → Option (List (ℚ × ℚ))
  | start, 0 => if start < total then none else some []
  | start, fuel + 1 =>
      if start < total then
        (durationLoop d total (min (start + d) total) fuel).map
          (fun segs => (start, min (start + d) total) :: segs)
      else some []

/-- `split_video_by_duration` (src/main.py:40-66), the video modelled by its
total duration `total`; `.ok none` means the while-loop has not finished
after `fuel` iterations. -/
def split_video_by_duration (video_path dur : String) (total : ℚ) (fuel : Nat) :
    Except String (Option (List (ℚ × ℚ))) :=
  if video_path = "" then .error "Please upload a video file."
  else if dur = "" then .error "Please enter a duration."
  else
    match pyFloat dur.toList with
    | none => .error "Invalid duration format. Please use a number (e.g., 30)."
    | some d => .ok (durationLoop d total 0 fuel)

/-- A moviepy clip, modelled as the ordered list of
`(source path, start, end)` pieces it is assembled from. -/
structure Clip where
  segments : List (String × ℚ × ℚ)
deriving DecidableEq

/-- `VideoFileClip(path)`: the whole source file, one piece covering
`[0, duration)`, where `duration` is the file's duration. -/
def VideoFileClip (path : String) (duration : ℚ) : Clip :=
  ⟨[(path, 0, duration)]⟩

/-- Duration of a clip: the summed length of its pieces. -/
def Clip.duration (c : Clip) : ℚ :=
  (c.segments.map fun x => x.2.2 - x.2.1).sum

/-- Models the external library's `concatenate_videoclips`: the clips joined
end to end in exactly the list order, no re-ordering or normalization. -/
def concatenate_videoclips (clips : List Clip) : Clip :=
  ⟨(clips.map Clip.segments).flatten⟩

/-- `merge_videos` (src/main.py:68-79).  The Gradio file-list input is `none`
when absent; `durations` gives each path's video duration.  On success the
result is the fixed output path together with the clip written there. -/
def merge_videos (video_paths : Option (List String)) (durations : String → ℚ) :
    Except String (String × Clip) :=
  let paths := video_paths.getD []
  if paths = [] then .error "Please select at least two video files."
  else
    let clips := paths.map fun p => VideoFileClip p (durations p)
    let final_clip := concatenate_videoclips clips
    .ok ("merged_video.mp4", final_clip)

/-- A direct directory entry as seen by `os.listdir` plus `os.path.isfile`:
its bare name and whether the joined path is a regular file. -/
structure DirEntry where
  name : String
  isFile : Bool
deriving DecidableEq

/-- The fixed extension allow-list of src/main.py:83. -/
def video_extensions : List String := [".mp4", ".avi", ".mov", ".mkv", ".webm"]

/-- The suffix of `cs` starting at its last `'.'`, if any. -/
def lastExt : List Char → Option (List Char)
  | [] => none
  | c :: cs =>
      match lastExt cs with
      | some e => some e
      | none => if c = '.' then some (c :: cs) else none

/-- `os.path.splitext(name)[1]` for a bare filename (no path separator): the
suffix from the last dot, empty when there is no dot or only leading dots. -/
def splitext_ext (name : String) : String :=
  let cs := name.toList
  match lastExt cs with
  | none => ""
  | some e =>
      if (cs.take (cs.length - e.length)).any (fun c => c ≠ '.') then
        String.mk e
      else ""

/-- Python `str.lower()` restricted to ASCII letters, which is all the
extension comparison of src/main.py:87 needs. -/
def lowerStr (s : String) : String :=
  String.mk (s.toList.map Char.toLower)

/-- `os.path.join(directory, f)` on POSIX for the shapes arising here. -/
def pathJoin (directory f : String) : String :=
  if f.toList.headD ' ' = '/' then f
  else if directory = "" then f
  else if directory.toList.getLastD ' ' = '/' then directory ++ f
  else directory ++ "/" ++ f

/-- `get_video_files_from_dir` (src/main.py:81-89); `entries` is
`os.listdir(directory)` in filesystem iteration order. -/
def get_video_files_from_dir (directory : String) (entries : List DirEntry) :
    List String :=
  (entries.filter fun f =>
      f.isFile && video_extensions.contains (lowerStr (splitext_ext f.name))).map
    (fun f => pathJoin directory f.name)

end VideoTools

/-! ### Helper lemmas about the mark-splitting loop -/

namespace VideoTools

theorem buildSegments_eq_zip (a : ℚ) (s : List ℚ) :
    buildSegments a s = List.zip (a :: s) s := by
  induction s generalizing a with
  | nil => rfl
  | cons m t ih => simp [buildSegments, List.zip_cons_cons, ih]

theorem loopEnd_eq_getLastD (a : ℚ) (s : List ℚ) :
    loopEnd a s = s.getLastD a := by
  induction s generalizing a with
  | nil => rfl
  | cons m t ih => rw [loopEnd, ih, List.getLastD_cons]

theorem buildSegments_append_last (a D : ℚ) (s : List ℚ) :
    buildSegments a s ++ [(s.getLastD a, D)] = List.zip (a :: s) (s ++ [D]) := by
  induction s generalizing a with
  | nil => simp [buildSegments, List.getLastD]
  | cons m t ih =>
      simp only [buildSegments, List.getLastD_cons, List.cons_append,
        List.zip_cons_cons, ih]

theorem getLastD_mem_cons : ∀ (t : List ℚ) (b : ℚ), t.getLastD b ∈ b :: t
  | [], b => by simp [List.getLastD]
  | c :: t', b => by
      rw [List.getLastD_cons]
      rcases List.mem_cons.1 (getLastD_mem_cons t' c) with h | h
      · exact List.mem_cons.2 (Or.inr (List.mem_cons.2 (Or.inl h)))
      · exact List.mem_cons.2 (Or.inr (List.mem_cons.2 (Or.inr h)))

theorem le_getLastD_of_sorted {s : List ℚ} (hs : List.Sorted (· ≤ ·) s) :
    ∀ x ∈ s, ∀ a, x ≤ s.getLastD a := by
  induction s with
  | nil => simp
  | cons b t ih =>
      intro x hx a
      rw [List.getLastD_cons]
      rcases List.mem_cons.1 hx with rfl | hx
      · rcases List.mem_cons.1 (getLastD_mem_cons t x) with h | h
        · exact le_of_eq h.symm
        · exact (List.sorted_cons.1 hs).1 _ h
      · exact ih (List.sorted_cons.1 hs).2 x hx b

theorem getLastD_eq_max {s : List ℚ} {mx : ℚ} (hs : List.Sorted (· ≤ ·) s)
    (hmem : mx ∈ s) (hub : ∀ x ∈ s, x ≤ mx) (a : ℚ) : s.getLastD a = mx := by
  have h1 : mx ≤ s.getLastD a := le_getLastD_of_sorted hs mx hmem a
  have h2 : s.getLastD a ≤ mx := by
    cases s with
    | nil => simp at hmem
    | cons b t =>
        refine hub _ ?_
        rw [List.getLastD_cons]
        exact getLastD_mem_cons t b
  exact le_antisymm h2 h1

theorem parseMarks_eq_none_iff (m : String) :
    parseMarks m = none ↔ ∃ t ∈ splitTokens m.toList, pyFloat t = none := by
  show floatList _ = none ↔ _
  generalize splitTokens m.toList = ts
  induction ts with
  | nil => simp [floatList]
  | cons t ts ih =>
      rw [floatList]
      cases hv : pyFloat t with
      | none =>
          constructor
          · intro _; exact ⟨t, List.mem_cons_self t ts, hv⟩
          · intro _; rfl
      | some v =>
          cases hl : floatList ts with
          | none =>
              constructor
              · intro _
                obtain ⟨u, hu, hn⟩ := ih.1 hl
                exact ⟨u, List.mem_cons_of_mem _ hu, hn⟩
              · intro _; rfl
          | some vs =>
              constructor
              · intro h; cases h
              · rintro ⟨u, hu, hn⟩
                rcases List.mem_cons.1 hu with rfl | hu
                · rw [hv] at hn; cases hn
                · rw [ih.2 ⟨u, hu, hn⟩] at hl; cases hl

/-! ### Claims about the mark-splitter -/

section
attribute [local semireducible] Rat.add Rat.mul Rat.sub Rat.inv Rat.ofScientific

/-- C1: For every valid call of `split_video_at_marks` (non-empty path,
non-empty marks string, all tokens numeric) on a video of total duration `D`,
the produced segments are the consecutive intervals over the
ascending-sorted marks — `zip (0 :: sorted) sorted`, plus the trailing
`(largest, D)` exactly when the largest mark is strictly below `D` — and
their number is `len(marks) + 1` when the largest mark is strictly less
than `D`, else `len(marks)`. -/
theorem split_at_marks_segments (p m : String) (D : ℚ) (ms : List ℚ) (mx : ℚ)
    (hp : p ≠ "") (hm : m ≠ "") (hparse : parseMarks m = some ms)
    (hmem : mx ∈ ms) (hub : ∀ x ∈ ms, x ≤ mx) :
    split_video_at_marks p m D =
      .ok (List.zip (0 :: ms.insertionSort (· ≤ ·))
        (if mx < D then ms.insertionSort (· ≤ ·) ++ [D]
         else ms.insertionSort (· ≤ ·))) ∧
    ∀ segs, split_video_at_marks p m D = .ok segs →
      segs.length = if mx < D then ms.length + 1 else ms.length := by
  have hsort : List.Sorted (· ≤ ·) (ms.insertionSort (· ≤ ·)) :=
    List.sorted_insertionSort _ _
  have hmem' : mx ∈ ms.insertionSort (· ≤ ·) := (List.mem_insertionSort _).2 hmem
  have hub' : ∀ x ∈ ms.insertionSort (· ≤ ·), x ≤ mx :=
    fun x hx => hub x ((List.mem_insertionSort _).1 hx)
  have hlast : (ms.insertionSort (· ≤ ·)).getLastD 0 = mx :=
    getLastD_eq_max hsort hmem' hub' 0
  have hlen : (ms.insertionSort (· ≤ ·)).length = ms.length :=
    List.length_insertionSort _ _
  have hmain : split_video_at_marks p m D =
      .ok (List.zip (0 :: ms.insertionSort (· ≤ ·))
        (if mx < D then ms.insertionSort (· ≤ ·) ++ [D]
         else ms.insertionSort (· ≤ ·))) := by
    unfold split_video_at_marks
    rw [if_neg hp, if_neg hm, hparse]
    simp only [loopEnd_eq_getLastD, hlast]
    by_cases hD : mx < D
    · rw [if_pos hD, if_pos hD, ← hlast, buildSegments_append_last]
    · rw [if_neg hD, if_neg hD, buildSegments_eq_zip]
  refine ⟨hmain, ?_⟩
  intro segs hseg
  rw [hmain] at hseg
  injection hseg with hseg
  subst hseg
  by_cases hD : mx < D
  · rw [if_pos hD, if_pos hD]
    simp [List.length_zip, hlen]
  · rw [if_neg hD, if_neg hD]
    simp [List.length_zip, hlen]

/-- Witness for C1: video of length 90 with marks "10,30,60" yields the four
segments [0,10), [10,30), [30,60), [60,90). -/
theorem split_at_marks_segments_witness :
    split_video_at_marks "v.mp4" "10,30,60" 90 =
      .ok [(0, 10), (10, 30), (30, 60), (60, 90)] ∧
    ([((0:ℚ), (10:ℚ)), (10, 30), (30, 60), (60, 90)]).length = 3 + 1 := by
  have h := split_at_marks_segments "v.mp4" "10,30,60" 90 [10, 30, 60] 60
    (by decide) (by decide) (by decide) (by decide) (by decide)
  refine ⟨?_, by decide⟩
  rw [h.1]
  decide

/-- C3: two marks strings parsing to the same multiset of numbers produce
identical segment lists: the parsed marks are sorted ascending before
segmenting. -/
theorem split_at_marks_perm_invariant (p m₁ m₂ : String) (D : ℚ)
    (ms₁ ms₂ : List ℚ)
    (hm₁ : m₁ ≠ "") (hm₂ : m₂ ≠ "")
    (hp₁ : parseMarks m₁ = some ms₁) (hp₂ : parseMarks m₂ = some ms₂)
    (hperm : ms₁.Perm ms₂) :
    split_video_at_marks p m₁ D = split_video_at_marks p m₂ D := by
  have hsorteq : ms₁.insertionSort (· ≤ ·) = ms₂.insertionSort (· ≤ ·) :=
    List.eq_of_perm_of_sorted
      ((List.perm_insertionSort _ ms₁).trans
        (hperm.trans (List.perm_insertionSort _ ms₂).symm))
      (List.sorted_insertionSort _ _) (List.sorted_insertionSort _ _)
  unfold split_video_at_marks
  by_cases hp : p = ""
  · rw [if_pos hp, if_pos hp]
  · rw [if_neg hp, if_neg hp, if_neg hm₁, if_neg hm₂, hp₁, hp₂]
    simp only [hsorteq]

/-- Witness for C3: "30,10" behaves identically to "10,30". -/
theorem split_at_marks_perm_invariant_witness :
    split_video_at_marks "v.mp4" "30,10" 90 =
      split_video_at_marks "v.mp4" "10,30" 90 :=
  split_at_marks_perm_invariant "v.mp4" "30,10" "10,30" 90 [30, 10] [10, 30]
    (by decide) (by decide) (by decide) (by decide) (by decide)

/-- C5: `split_video_at_marks` raises a user-visible input error if and only
if the path is empty, the marks string is empty, or some comma-separated
token fails `float` parsing; in the error case the result carries no
segments (nothing is opened or written). -/
theorem split_at_marks_error_iff (p m : String) (D : ℚ) :
    (∃ e, split_video_at_marks p m D = .error e) ↔
      p = "" ∨ m = "" ∨ ∃ t ∈ splitTokens m.toList, pyFloat t = none := by
  unfold split_video_at_marks
  by_cases hp : p = ""
  · simp [hp]
  · rw [if_neg hp]
    by_cases hm : m = ""
    · simp [hm]
    · rw [if_neg hm]
      cases hparse : parseMarks m with
      | none =>
          simp only [hp, hm, false_or]
          exact ⟨fun _ => (parseMarks_eq_none_iff m).1 hparse, fun _ => ⟨_, rfl⟩⟩
      | some ms =>
          simp only [hp, hm, false_or]
          constructor
          · rintro ⟨e, he⟩; cases he
          · intro hex
            rw [(parseMarks_eq_none_iff m).2 hex] at hparse
            cases hparse

end

end VideoTools

/-! ### The duration-splitting loop -/

namespace VideoTools

theorem durationLoop_sound (d total : ℚ) (hd : 0 < d) :
    ∀ (fuel : Nat) (start : ℚ) (segs : List (ℚ × ℚ)),
      durationLoop d total start fuel = some segs →
      (start < total →
        segs.length = (⌈(total - start) / d⌉).toNat ∧
        (∀ seg ∈ segs.dropLast, seg.2 - seg.1 = d) ∧
        ((segs.map fun seg => seg.2 - seg.1).sum = total - start) ∧
        (segs.getLastD (0, 0)).2 = total) ∧
      (¬ start < total → segs = []) := by
  intro fuel
  induction fuel with
  | zero =>
      intro start segs h
      simp only [durationLoop] at h
      by_cases hlt : start < total
      · rw [if_pos hlt] at h; cases h
      · rw [if_neg hlt] at h
        injection h with h
        subst h
        exact ⟨fun hc => absurd hc hlt, fun _ => rfl⟩
  | succ fuel ih =>
      intro start segs h
      simp only [durationLoop] at h
      by_cases hlt : start < total
      · rw [if_pos hlt] at h
        refine ⟨fun _ => ?_, fun hc => absurd hlt hc⟩
        cases hrec : durationLoop d total (min (start + d) total) fuel with
        | none => rw [hrec] at h; cases h
        | some segs' =>
            rw [hrec] at h
            injection h with h
            subst h
            have spec := ih (min (start + d) total) segs' hrec
            by_cases hend : total ≤ start + d
            · have hmin : min (start + d) total = total := min_eq_right hend
              have hsegs' : segs' = [] := by
                refine spec.2 ?_
                rw [hmin]
                exact lt_irrefl total
              subst hsegs'
              rw [hmin]
              refine ⟨?_, ?_, ?_, ?_⟩
              · have h1 : (⌈(total - start) / d⌉ : ℤ) = 1 := by
                  rw [Int.ceil_eq_iff]
                  constructor
                  · push_cast
                    have hpos : (0:ℚ) < total - start := sub_pos.2 hlt
                    have := div_pos hpos hd
                    linarith
                  · push_cast
                    rw [div_le_one hd]
                    linarith
                rw [h1]
                rfl
              · intro seg hseg
                simp at hseg
              · simp
              · simp [List.getLastD]
            · push_neg at hend
              have hmin : min (start + d) total = start + d :=
                min_eq_left hend.le
              rw [hmin] at spec ⊢
              obtain ⟨hlen, hdrop, hsum, hlast⟩ := spec.1 hend
              have hceil_pos : 0 < ⌈(total - (start + d)) / d⌉ :=
                Int.ceil_pos.2 (div_pos (sub_pos.2 hend) hd)
              have hsegs_ne : segs' ≠ [] := by
                intro hnil
                rw [hnil] at hlen
                simp at hlen
                omega
              refine ⟨?_, ?_, ?_, ?_⟩
              · rw [List.length_cons, hlen]
                have hd0 : d ≠ 0 := ne_of_gt hd
                have harith : (total - start) / d = (total - (start + d)) / d + 1 := by
                  field_simp
                  ring
                rw [harith, Int.ceil_add_one]
                omega
              · intro seg hseg
                rw [List.dropLast_cons_of_ne_nil hsegs_ne] at hseg
                rcases List.mem_cons.1 hseg with rfl | hseg
                · simp
                · exact hdrop seg hseg
              · rw [List.map_cons, List.sum_cons, hsum]
                ring
              · rw [List.getLastD_cons]
                cases segs' with
                | nil => exact absurd rfl hsegs_ne
                | cons q qs =>
                    rw [List.getLastD_cons] at hlast ⊢
                    exact hlast
      · rw [if_neg hlt] at h
        injection h with h
        subst h
        exact ⟨fun hc => absurd hc hlt, fun _ => rfl⟩

theorem durationLoop_terminates (d total : ℚ) (hd : 0 < d) :
    ∀ (fuel : Nat) (start : ℚ),
      (⌈(total - start) / d⌉).toNat ≤ fuel →
      ∃ segs, durationLoop d total start fuel = some segs := by
  intro fuel
  induction fuel with
  | zero =>
      intro start hfuel
      simp only [durationLoop]
      have hceil : ⌈(total - start) / d⌉ ≤ 0 := by omega
      have hx : (total - start) / d ≤ (0:ℚ) := by exact_mod_cast Int.ceil_le.1 hceil
      have hts : total - start ≤ 0 := by
        by_contra hpos
        push_neg at hpos
        exact absurd (div_pos hpos hd) (not_lt.2 hx)
      have hnlt : ¬ start < total := not_lt.2 (by linarith)
      rw [if_neg hnlt]
      exact ⟨[], rfl⟩
  | succ fuel ih =>
      intro start hfuel
      simp only [durationLoop]
      by_cases hlt : start < total
      · rw [if_pos hlt]
        by_cases hend : total ≤ start + d
        · have hmin : min (start + d) total = total := min_eq_right hend
          rw [hmin]
          obtain ⟨segs, hs⟩ := ih total (by
            rw [sub_self, zero_div]
            simp)
          exact ⟨_, by rw [hs]; rfl⟩
        · push_neg at hend
          have hmin : min (start + d) total = start + d := min_eq_left hend.le
          rw [hmin]
          have hd0 : d ≠ 0 := ne_of_gt hd
          have harith : (total - start) / d = (total - (start + d)) / d + 1 := by
            field_simp
            ring
          have hceil : ⌈(total - start) / d⌉ = ⌈(total - (start + d)) / d⌉ + 1 := by
            rw [harith, Int.ceil_add_one]
          have hpos : 0 < ⌈(total - (start + d)) / d⌉ :=
            Int.ceil_pos.2 (div_pos (sub_pos.2 hend) hd)
          obtain ⟨segs, hs⟩ := ih (start + d) (by omega)
          exact ⟨_, by rw [hs]; rfl⟩
      · rw [if_neg hlt]
        exact ⟨[], rfl⟩

theorem durationLoop_nonpos_none (d total : ℚ) (hd : d ≤ 0) :
    ∀ (fuel : Nat) (start : ℚ), start < total →
      durationLoop d total start fuel = none := by
  intro fuel
  induction fuel with
  | zero =>
      intro start h
      simp only [durationLoop]
      rw [if_pos h]
  | succ fuel ih =>
      intro start h
      simp only [durationLoop]
      rw [if_pos h]
      have hle : start + d ≤ start := add_le_of_nonpos_right hd
      have hlt : start + d < total := lt_of_le_of_lt hle h
      have hmin : min (start + d) total = start + d := min_eq_left hlt.le
      rw [hmin, ih (start + d) hlt]
      rfl

/-! ### Claims about the duration-splitter -/

section
attribute [local semireducible] Rat.add Rat.mul Rat.sub Rat.inv Rat.ofScientific

/-- C2: for every valid call of `split_video_by_duration` with parsed
duration `d > 0` on a video of total length `total > 0` whose loop finishes,
the number of produced segments is `⌈total / d⌉`, every segment except
possibly the last has length exactly `d`, the final segment ends at `total`
(truncated to the remainder), and the segment lengths sum to `total`
exactly. -/
theorem split_by_duration_segments (p s : String) (total d : ℚ) (fuel : Nat)
    (segs : List (ℚ × ℚ))
    (hp : p ≠ "") (hs : s ≠ "") (hparse : pyFloat s.toList = some d)
    (hd : 0 < d) (htotal : 0 < total)
    (hrun : split_video_by_duration p s total fuel = .ok (some segs)) :
    segs.length = (⌈total / d⌉).toNat ∧
    (∀ seg ∈ segs.dropLast, seg.2 - seg.1 = d) ∧
    ((segs.map fun seg => seg.2 - seg.1).sum = total) ∧
    (segs.getLastD (0, 0)).2 = total := by
  have hloop : durationLoop d total 0 fuel = some segs := by
    unfold split_video_by_duration at hrun
    rw [if_neg hp, if_neg hs, hparse] at hrun
    injection hrun with hrun
  have spec := (durationLoop_sound d total hd fuel 0 segs hloop).1 htotal
  rw [sub_zero] at spec
  exact spec

/-- Witness for C2: total length 100 with duration 40 gives the three
segments [0,40), [40,80), [80,100): count ⌈100/40⌉ = 3, all but the last of
length 40, ending at 100, lengths summing to 100. -/
theorem split_by_duration_segments_witness :
    ([((0:ℚ), (40:ℚ)), (40, 80), (80, 100)]).length = (⌈(100:ℚ) / 40⌉).toNat ∧
    (∀ seg ∈ ([((0:ℚ), (40:ℚ)), (40, 80), (80, 100)]).dropLast,
      seg.2 - seg.1 = 40) ∧
    ((([((0:ℚ), (40:ℚ)), (40, 80), (80, 100)]).map
        fun seg => seg.2 - seg.1).sum = 100) ∧
    (([((0:ℚ), (40:ℚ)), (40, 80), (80, 100)]).getLastD (0, 0)).2 = 100 :=
  split_by_duration_segments "v.mp4" "40" 100 40 5 [(0, 40), (40, 80), (80, 100)]
    (by decide) (by decide) (by decide) (by decide) (by decide) (by decide)

/-- C4: for every duration string parsing to `d > 0` and every total video
length, the segmentation loop of `split_video_by_duration` terminates: some
finite iteration bound completes it, producing finitely many segments. -/
theorem split_by_duration_terminates (p s : String) (total d : ℚ)
    (hp : p ≠ "") (hs : s ≠ "") (hparse : pyFloat s.toList = some d)
    (hd : 0 < d) :
    ∃ (fuel : Nat) (segs : List (ℚ × ℚ)),
      split_video_by_duration p s total fuel = .ok (some segs) := by
  obtain ⟨segs, hsegs⟩ :=
    durationLoop_terminates d total hd (⌈(total - 0) / d⌉).toNat 0 le_rfl
  refine ⟨(⌈(total - 0) / d⌉).toNat, segs, ?_⟩
  unfold split_video_by_duration
  rw [if_neg hp, if_neg hs, hparse]
  show Except.ok (durationLoop d total 0 (⌈(total - 0) / d⌉).toNat) =
    Except.ok (some segs)
  rw [hsegs]

/-- Witness for C4 at path "v.mp4", duration string "40", total length 100. -/
theorem split_by_duration_terminates_witness :
    ∃ (fuel : Nat) (segs : List (ℚ × ℚ)),
      split_video_by_duration "v.mp4" "40" 100 fuel = .ok (some segs) :=
  split_by_duration_terminates "v.mp4" "40" 100 40 (by decide) (by decide)
    (by decide) (by decide)

/-- C9: the numeric duration string "0" parses to the non-positive value 0,
passes all input validation of `split_video_by_duration` (the result is
`.ok`, not an input error), and on a video of positive length the
segmentation loop never finishes, whatever the iteration bound — the
positivity stated in the data model is not checked anywhere. -/
theorem split_by_duration_zero_diverges (p : String) (total : ℚ) (fuel : Nat)
    (hp : p ≠ "") (htotal : 0 < total) :
    pyFloat ("0").toList = some 0 ∧
    split_video_by_duration p "0" total fuel = .ok none := by
  refine ⟨by decide, ?_⟩
  unfold split_video_by_duration
  rw [if_neg hp, if_neg (by decide : ¬("0" : String) = ""),
    (by decide : pyFloat ("0").toList = some 0)]
  show Except.ok (durationLoop 0 total 0 fuel) = Except.ok none
  rw [durationLoop_nonpos_none 0 total le_rfl fuel 0 htotal]

/-- Witness for C9: path "v.mp4", a 1-second video, 5 iterations. -/
theorem split_by_duration_zero_diverges_witness :
    pyFloat ("0").toList = some 0 ∧
    split_video_by_duration "v.mp4" "0" 1 5 = .ok none :=
  split_by_duration_zero_diverges "v.mp4" 1 5 (by decide) (by decide)

end

end VideoTools

/-! ### Merging and directory listing -/

namespace VideoTools

theorem flatten_map_singleton {α β : Type} (g : α → β) (l : List α) :
    (l.map fun x => [g x]).flatten = l.map g := by
  induction l with
  | nil => rfl
  | cons a t ih => simp [ih]

theorem concatenate_map_VideoFileClip (paths : List String)
    (durations : String → ℚ) :
    concatenate_videoclips (paths.map fun p => VideoFileClip p (durations p)) =
      Clip.mk (paths.map fun q => (q, 0, durations q)) := by
  unfold concatenate_videoclips
  congr 1
  rw [List.map_map]
  have hf : (Clip.segments ∘ fun p => VideoFileClip p (durations p)) =
      fun q => [(q, 0, durations q)] := rfl
  rw [hf]
  exact flatten_map_singleton _ _

section
attribute [local semireducible] Rat.add Rat.mul Rat.sub Rat.inv Rat.ofScientific

/-- C6: `merge_videos` raises a user-visible input error if and only if the
supplied list of video paths is empty or absent; in that case the result
carries no output clip. -/
theorem merge_videos_error_iff (ps : Option (List String))
    (durations : String → ℚ) :
    (∃ e, merge_videos ps durations = .error e) ↔ ps = none ∨ ps = some [] := by
  cases ps with
  | none => simp [merge_videos]
  | some l =>
      cases l with
      | nil => simp [merge_videos]
      | cons q qs => simp [merge_videos]

/-- C7: for every non-empty ordered list of input clips, `merge_videos`
concatenates them in exactly the order supplied (the output's pieces are the
inputs in list order), returns the fixed path "merged_video.mp4", and the
output's duration equals the sum of the input clips' durations. -/
theorem merge_videos_concat (paths : List String) (durations : String → ℚ)
    (h : paths ≠ []) :
    merge_videos (some paths) durations =
      .ok ("merged_video.mp4",
        Clip.mk (paths.map fun q => (q, 0, durations q))) ∧
    (Clip.mk (paths.map fun q => (q, 0, durations q))).duration =
      (paths.map durations).sum := by
  constructor
  · unfold merge_videos
    simp only [Option.getD_some]
    rw [if_neg h, concatenate_map_VideoFileClip]
  · unfold Clip.duration
    rw [List.map_map]
    have hf : ((fun x => x.2.2 - x.2.1) ∘
        fun q => ((q : String), (0:ℚ), durations q)) =
        fun q => durations q - 0 := rfl
    rw [hf]
    simp

/-- Witness for C7: clips "a.mp4" (20 s) and "b.mp4" (15 s) merge, in that
order, into "merged_video.mp4" of duration 35. -/
theorem merge_videos_concat_witness :
    (merge_videos (some ["a.mp4", "b.mp4"])
        (fun q => if q = "a.mp4" then 20 else 15) =
      .ok ("merged_video.mp4",
        Clip.mk (["a.mp4", "b.mp4"].map
          fun q => (q, 0, if q = "a.mp4" then (20:ℚ) else 15))) ∧
    (Clip.mk (["a.mp4", "b.mp4"].map
        fun q => (q, 0, if q = "a.mp4" then (20:ℚ) else 15))).duration =
      (["a.mp4", "b.mp4"].map
        fun q => if q = "a.mp4" then (20:ℚ) else 15).sum) ∧
    (Clip.mk [("a.mp4", (0:ℚ), (20:ℚ)), ("b.mp4", 0, 15)]).duration = 35 :=
  ⟨merge_videos_concat ["a.mp4", "b.mp4"]
      (fun q => if q = "a.mp4" then 20 else 15) (by decide),
    by decide⟩

/-- C10: `merge_videos` accepts a list containing exactly one video path
without raising any error and proceeds to produce the merged output, even
though the error message shown for the rejected empty/absent input asks for
"at least two video files". -/
theorem merge_videos_singleton (q : String) (durations : String → ℚ) :
    merge_videos (some [q]) durations =
      .ok ("merged_video.mp4", Clip.mk [(q, 0, durations q)]) ∧
    merge_videos none durations =
      .error "Please select at least two video files." := by
  constructor
  · have h := concatenate_map_VideoFileClip [q] durations
    unfold merge_videos
    simp only [Option.getD_some]
    rw [if_neg (List.cons_ne_nil q []), h]
    rfl
  · rfl

end

/-- C8: `get_video_files_from_dir` returns exactly the direct entries that
are regular files and whose lowercased extension is in the fixed allow-list
mp4/avi/mov/mkv/webm, each joined with the directory, in the listing's
iteration order (the result is a sublist of the joined listing — no sorting
is applied); entries with any other extension, and non-files, are excluded. -/
theorem get_video_files_spec (directory : String) (entries : List DirEntry) :
    get_video_files_from_dir directory entries =
      (entries.filter fun f => decide (f.isFile = true ∧
          lowerStr (splitext_ext f.name) ∈ video_extensions)).map
        (fun f => pathJoin directory f.name) ∧
    (get_video_files_from_dir directory entries).Sublist
      (entries.map fun f => pathJoin directory f.name) := by
  constructor
  · unfold get_video_files_from_dir
    congr 1
    apply List.filter_congr
    intro f _
    simp
  · unfold get_video_files_from_dir
    exact (List.filter_sublist _).map _

end VideoTools
